import Mathlib

/- Shallow embedding of the chimera-torch repository core:
   torchchimera/losses.py and torchchimera/submodels.py.

   Modelling conventions.  Real scalar tensors are modelled over a linear
   ordered field (the concrete instances used below are the rationals and
   the reals); complex STFT bins, which torch stores as a trailing
   dimension of size 2, become pairs of scalars.  The batch and channel
   dimensions become lists, so that Python's itertools.permutations over
   the channel list becomes List.permutations and Python's zip over the
   batch becomes List.zip (both truncate at the shorter argument, exactly
   as zip does in Python).  The frequency and time dimensions of a
   spectrogram are flattened into a single bin index: every operation the
   losses perform on those dimensions is elementwise or a full sum, so the
   flattening is faithful.  Python float literals such as 1e-12 are
   modelled by the exact rationals they denote. -/

namespace Chimera

open Matrix (transpose)
open scoped Matrix

/-- Python builtin min over a nonempty list, as the loss functions apply it
to the generator of permutation costs; a left fold of the binary min with
the head as the initial accumulator.  On the empty list (a case the losses
never produce, since every list occurs among its own permutations) it
returns 0. -/
def pyMin {α : Type*} [LinearOrderedField α] : List α → α
  | [] => 0
  | x :: xs => xs.foldl min x

theorem foldl_min_le_init {α : Type*} [LinearOrderedField α] (xs : List α) (a : α) :
    xs.foldl min a ≤ a := by
  induction xs generalizing a with
  | nil => exact le_refl a
  | cons y ys ih => exact le_trans (ih (min a y)) (min_le_left a y)

theorem foldl_min_le_mem {α : Type*} [LinearOrderedField α] {x : α} {xs : List α}
    (h : x ∈ xs) (a : α) : xs.foldl min a ≤ x := by
  induction xs generalizing a with
  | nil => exact absurd h (List.not_mem_nil x)
  | cons y ys ih =>
    rcases List.mem_cons.mp h with rfl | h'
    · exact le_trans (foldl_min_le_init ys (min a x)) (min_le_right a x)
    · exact ih h' (min a y)

theorem pyMin_le {α : Type*} [LinearOrderedField α] {l : List α} {x : α}
    (h : x ∈ l) : pyMin l ≤ x := by
  cases l with
  | nil => exact absurd h (List.not_mem_nil x)
  | cons y ys =>
    rcases List.mem_cons.mp h with rfl | h'
    · exact foldl_min_le_init ys x
    · exact foldl_min_le_mem h' y

theorem foldl_min_mem {α : Type*} [LinearOrderedField α] (xs : List α) (a : α) :
    xs.foldl min a = a ∨ xs.foldl min a ∈ xs := by
  induction xs generalizing a with
  | nil => exact Or.inl rfl
  | cons y ys ih =>
    rcases ih (min a y) with h | h
    · rcases min_choice a y with h' | h'
      · exact Or.inl (h.trans h')
      · refine Or.inr ?_
        rw [List.foldl_cons, h, h']
        exact List.mem_cons_self y ys
    · exact Or.inr (List.mem_cons_of_mem y h)

theorem pyMin_mem {α : Type*} [LinearOrderedField α] {l : List α} (h : l ≠ []) :
    pyMin l ∈ l := by
  cases l with
  | nil => exact absurd rfl h
  | cons y ys =>
    rcases foldl_min_mem ys y with h' | h'
    · rw [pyMin, h']
      exact List.mem_cons_self y ys
    · exact List.mem_cons_of_mem y h'

/-- Sum of elementwise absolute differences between two 1-D tensors:
torch.sum(torch.abs(a - b)) for equally long a and b (mismatched lengths
truncate, as Python zip would). -/
def l1Cost {α : Type*} [LinearOrderedField α] (a b : List α) : α :=
  (List.zipWith (fun x y => |x - y|) a b).sum

/-- Total cost of one channel ordering against the fixed-order truths:
torch.sum(torch.abs(torch.stack(s) - source_true)) from losses.loss_wa,
summing the elementwise absolute difference over every channel and
sample. -/
def stackL1Cost {α : Type*} [LinearOrderedField α] (s t : List (List α)) : α :=
  (List.zipWith l1Cost s t).sum

/-- losses.loss_wa: for each batch example (zip over the batch), the Python
min over itertools.permutations of the example's estimated channels of the
total L1 cost against the fixed-order true channels, summed over the
batch. -/
def loss_wa {α : Type*} [LinearOrderedField α]
    (source_pred source_true : List (List (List α))) : α :=
  ((source_pred.zip source_true).map fun pt =>
    pyMin (pt.1.permutations.map fun s => stackL1Cost s pt.2)).sum

/-- Claim C2: loss_wa computes, for each batch example independently, the
total elementwise cost of every one of the C! permutations of the C
estimated channels against the fixed-order true channels, takes the minimum
total, and returns the sum of these per-example minima over the batch
(summed, not averaged).  Formally: the value is the batch sum of per-example
minima; for each example the enumerated list of candidate orderings has
exactly C! entries; the per-example minimum is a lower bound on the total
cost of every permutation of the estimated channels; and it is attained by
some permutation of them. -/
theorem loss_wa_perm_min_spec {α : Type*} [LinearOrderedField α]
    (source_pred source_true : List (List (List α))) :
    loss_wa source_pred source_true
      = ((source_pred.zip source_true).map fun pt =>
          pyMin (pt.1.permutations.map fun s => stackL1Cost s pt.2)).sum
    ∧ ∀ p t, (p, t) ∈ source_pred.zip source_true →
        p.permutations.length = p.length.factorial
        ∧ (∀ s, s.Perm p →
            pyMin (p.permutations.map fun s' => stackL1Cost s' t) ≤ stackL1Cost s t)
        ∧ ∃ s, s.Perm p ∧
            pyMin (p.permutations.map fun s' => stackL1Cost s' t) = stackL1Cost s t := by
  refine ⟨rfl, fun p t _ => ⟨List.length_permutations p, fun s hs => ?_, ?_⟩⟩
  · exact pyMin_le (List.mem_map_of_mem _ (List.mem_permutations.mpr hs))
  · have hne : (p.permutations.map fun s' => stackL1Cost s' t) ≠ [] := by
      intro hnil
      have hp : p ∈ p.permutations := List.mem_permutations.mpr (List.Perm.refl p)
      exact (List.not_mem_nil _) (hnil ▸ List.mem_map_of_mem _ hp)
    rcases List.mem_map.mp (pyMin_mem hne) with ⟨s, hs, hval⟩
    exact ⟨s, List.mem_permutations.mp hs, hval.symm⟩

/-- Witness for claim C2 at a concrete rational input: one batch example
with two single-sample channels, estimates [[1],[2]] against truths
[[2],[1]]. -/
theorem loss_wa_perm_min_spec_witness :
    (([[(1 : ℚ)], [2]], [[(2 : ℚ)], [1]])
        ∈ [[[(1 : ℚ)], [2]]].zip [[[(2 : ℚ)], [1]]])
    ∧ List.Perm [[(2 : ℚ)], [1]] [[(1 : ℚ)], [2]]
    ∧ pyMin (([[(1 : ℚ)], [2]].permutations).map
        fun s' => stackL1Cost s' [[(2 : ℚ)], [1]])
      ≤ stackL1Cost [[(2 : ℚ)], [1]] [[(2 : ℚ)], [1]] :=
  ⟨by decide, by decide,
    ((loss_wa_perm_min_spec [[[(1 : ℚ)], [2]]] [[[(2 : ℚ)], [1]]]).2
      [[(1 : ℚ)], [2]] [[(2 : ℚ)], [1]] (by decide)).2.1
      [[(2 : ℚ)], [1]] (by decide)⟩

/-- Squared Frobenius norm of a matrix, i.e. torch.sum(M ** 2): the sum of
the squares of all entries. -/
def frob2 {α : Type*} [LinearOrderedField α] {n m : ℕ}
    (M : Matrix (Fin n) (Fin m) α) : α :=
  ∑ i, ∑ j, (M i j) ^ 2

/-- losses.loss_dc: the batch dimension becomes a list of embedding
matrices V (rows indexed by time*freq bins, columns by embedding
dimensions) and a list of label matrices Y (columns by channels);
embd.transpose(1, 2).bmm(embd) is the per-example product Vᵀ*V, and
torch.sum squares and sums over the batch and all entries. -/
def loss_dc {α : Type*} [LinearOrderedField α] {n d c : ℕ}
    (embd : List (Matrix (Fin n) (Fin d) α))
    (label : List (Matrix (Fin n) (Fin c) α)) : α :=
  (embd.map fun V => frob2 (Vᵀ * V)).sum
    + (label.map fun Y => frob2 (Yᵀ * Y)).sum
    - 2 * ((embd.zip label).map fun VY => frob2 (VY.1ᵀ * VY.2)).sum

theorem frob2_eq_trace {α : Type*} [LinearOrderedField α] {n m : ℕ}
    (M : Matrix (Fin n) (Fin m) α) : frob2 M = Matrix.trace (Mᵀ * M) := by
  unfold frob2 Matrix.trace
  rw [Finset.sum_comm]
  refine Finset.sum_congr rfl fun j _ => ?_
  simp [Matrix.mul_apply, Matrix.diag, sq]

theorem trace_gram_sq {α : Type*} [LinearOrderedField α] {n m : ℕ}
    (A : Matrix (Fin n) (Fin m) α) :
    Matrix.trace ((A * Aᵀ) * (A * Aᵀ)) = Matrix.trace ((Aᵀ * A) * (Aᵀ * A)) := by
  simp only [← Matrix.mul_assoc]
  conv_lhs => rw [Matrix.trace_mul_comm]
  simp only [← Matrix.mul_assoc]

theorem trace_gram_cross {α : Type*} [LinearOrderedField α] {n d c : ℕ}
    (A : Matrix (Fin n) (Fin d) α) (B : Matrix (Fin n) (Fin c) α) :
    Matrix.trace ((A * Aᵀ) * (B * Bᵀ)) = Matrix.trace ((Bᵀ * A) * (Aᵀ * B)) := by
  simp only [← Matrix.mul_assoc]
  conv_lhs => rw [Matrix.trace_mul_comm]
  simp only [← Matrix.mul_assoc]

theorem frob2_gram_diff {α : Type*} [LinearOrderedField α] {n d c : ℕ}
    (A : Matrix (Fin n) (Fin d) α) (B : Matrix (Fin n) (Fin c) α) :
    frob2 (A * Aᵀ - B * Bᵀ)
      = frob2 (Aᵀ * A) + frob2 (Bᵀ * B) - 2 * frob2 (Aᵀ * B) := by
  rw [frob2_eq_trace, frob2_eq_trace, frob2_eq_trace, frob2_eq_trace]
  simp only [Matrix.transpose_sub, Matrix.transpose_mul, Matrix.transpose_transpose]
  have hexp : (A * Aᵀ - B * Bᵀ) * (A * Aᵀ - B * Bᵀ)
      = (A * Aᵀ) * (A * Aᵀ) - (A * Aᵀ) * (B * Bᵀ)
        - (B * Bᵀ) * (A * Aᵀ) + (B * Bᵀ) * (B * Bᵀ) := by
    noncomm_ring
  rw [hexp]
  simp only [Matrix.trace_add, Matrix.trace_sub]
  rw [trace_gram_sq A, trace_gram_sq B, trace_gram_cross A B,
    Matrix.trace_mul_comm (B * Bᵀ) (A * Aᵀ), trace_gram_cross A B]
  ring

theorem loss_dc_zip {α : Type*} [LinearOrderedField α] {n d c : ℕ} :
    ∀ (V : List (Matrix (Fin n) (Fin d) α)) (Y : List (Matrix (Fin n) (Fin c) α)),
      V.length = Y.length →
      loss_dc V Y = ((V.zip Y).map fun VY => frob2 (VY.1 * VY.1ᵀ - VY.2 * VY.2ᵀ)).sum := by
  intro V
  induction V with
  | nil =>
    intro Y h
    cases Y with
    | nil => simp [loss_dc]
    | cons B Y' => exact absurd h (by simp)
  | cons A V' ih =>
    intro Y h
    cases Y with
    | nil => exact absurd h (by simp)
    | cons B Y' =>
      have h' : V'.length = Y'.length := by simpa using h
      have hrec := ih Y' h'
      simp only [loss_dc, List.zip_cons_cons, List.map_cons, List.sum_cons] at hrec ⊢
      rw [frob2_gram_diff A B]
      linarith [hrec]

theorem frob2_nonneg {α : Type*} [LinearOrderedField α] {n m : ℕ}
    (M : Matrix (Fin n) (Fin m) α) : 0 ≤ frob2 M :=
  Finset.sum_nonneg fun _ _ => Finset.sum_nonneg fun _ _ => sq_nonneg _

theorem frob2_eq_zero_iff {α : Type*} [LinearOrderedField α] {n m : ℕ}
    (M : Matrix (Fin n) (Fin m) α) : frob2 M = 0 ↔ M = 0 := by
  constructor
  · intro h
    ext i j
    have h1 := (Finset.sum_eq_zero_iff_of_nonneg fun i _ =>
      Finset.sum_nonneg fun j _ => sq_nonneg (M i j)).mp h i (Finset.mem_univ i)
    have h2 := (Finset.sum_eq_zero_iff_of_nonneg fun j _ =>
      sq_nonneg (M i j)).mp h1 j (Finset.mem_univ j)
    simpa using (pow_eq_zero_iff two_ne_zero).mp h2
  · intro h
    simp [h, frob2]

theorem list_sum_eq_zero_iff_of_nonneg {α : Type*} [LinearOrderedField α] :
    ∀ {l : List α}, (∀ x ∈ l, 0 ≤ x) → (l.sum = 0 ↔ ∀ x ∈ l, x = 0) := by
  intro l
  induction l with
  | nil => simp
  | cons y ys ih =>
    intro h0
    have hy : 0 ≤ y := h0 y (List.mem_cons_self y ys)
    have hys : ∀ x ∈ ys, 0 ≤ x := fun x hx => h0 x (List.mem_cons_of_mem y hx)
    have hsum : 0 ≤ ys.sum := List.sum_nonneg hys
    constructor
    · intro h
      rw [List.sum_cons] at h
      intro x hx
      rcases List.mem_cons.mp hx with rfl | hx'
      · linarith
      · exact ((ih hys).mp (by linarith)) x hx'
    · intro h
      have : y = 0 := h y (List.mem_cons_self y ys)
      rw [List.sum_cons, this, zero_add]
      exact (ih hys).mpr fun x hx => h x (List.mem_cons_of_mem y hx)

/-- Claim C9: loss_dc(embd, label) equals the batch sum of the squared
Frobenius norm of the difference of the two Gram (affinity) matrices
embd*embdᵀ and label*labelᵀ, hence is non-negative, and is zero exactly
when those Gram matrices coincide for every batch element. -/
theorem loss_dc_gram_nonneg {α : Type*} [LinearOrderedField α] {n d c : ℕ}
    (embd : List (Matrix (Fin n) (Fin d) α))
    (label : List (Matrix (Fin n) (Fin c) α))
    (h : embd.length = label.length) :
    loss_dc embd label
      = ((embd.zip label).map fun VY => frob2 (VY.1 * VY.1ᵀ - VY.2 * VY.2ᵀ)).sum
    ∧ 0 ≤ loss_dc embd label
    ∧ (loss_dc embd label = 0 ↔
        ∀ VY ∈ embd.zip label, VY.1 * VY.1ᵀ = VY.2 * VY.2ᵀ) := by
  have he := loss_dc_zip embd label h
  have hmemnn : ∀ x ∈ (embd.zip label).map
      (fun VY => frob2 (VY.1 * VY.1ᵀ - VY.2 * VY.2ᵀ)), 0 ≤ x := by
    intro x hx
    rcases List.mem_map.mp hx with ⟨VY, _, rfl⟩
    exact frob2_nonneg _
  refine ⟨he, ?_, ?_⟩
  · rw [he]
    exact List.sum_nonneg hmemnn
  · rw [he, list_sum_eq_zero_iff_of_nonneg hmemnn]
    constructor
    · intro hz VY hVY
      have := hz _ (List.mem_map_of_mem _ hVY)
      have := (frob2_eq_zero_iff _).mp this
      exact sub_eq_zero.mp this
    · intro hz x hx
      rcases List.mem_map.mp hx with ⟨VY, hVY, rfl⟩
      exact (frob2_eq_zero_iff _).mpr (sub_eq_zero.mpr (hz VY hVY))

/-- Witness for claim C9 at a concrete rational input: a batch of one
example with 1x1 embedding and label matrices. -/
theorem loss_dc_gram_nonneg_witness :
    ([(Matrix.of fun _ _ => (2 : ℚ) : Matrix (Fin 1) (Fin 1) ℚ)].length
        = [(Matrix.of fun _ _ => (3 : ℚ) : Matrix (Fin 1) (Fin 1) ℚ)].length)
    ∧ (loss_dc [(Matrix.of fun _ _ => (2 : ℚ) : Matrix (Fin 1) (Fin 1) ℚ)]
          [(Matrix.of fun _ _ => (3 : ℚ) : Matrix (Fin 1) (Fin 1) ℚ)]
        = (([(Matrix.of fun _ _ => (2 : ℚ) : Matrix (Fin 1) (Fin 1) ℚ)].zip
            [(Matrix.of fun _ _ => (3 : ℚ) : Matrix (Fin 1) (Fin 1) ℚ)]).map
            fun VY => frob2 (VY.1 * VY.1ᵀ - VY.2 * VY.2ᵀ)).sum
      ∧ 0 ≤ loss_dc [(Matrix.of fun _ _ => (2 : ℚ) : Matrix (Fin 1) (Fin 1) ℚ)]
          [(Matrix.of fun _ _ => (3 : ℚ) : Matrix (Fin 1) (Fin 1) ℚ)]
      ∧ (loss_dc [(Matrix.of fun _ _ => (2 : ℚ) : Matrix (Fin 1) (Fin 1) ℚ)]
            [(Matrix.of fun _ _ => (3 : ℚ) : Matrix (Fin 1) (Fin 1) ℚ)] = 0 ↔
          ∀ VY ∈ [(Matrix.of fun _ _ => (2 : ℚ) : Matrix (Fin 1) (Fin 1) ℚ)].zip
            [(Matrix.of fun _ _ => (3 : ℚ) : Matrix (Fin 1) (Fin 1) ℚ)],
            VY.1 * VY.1ᵀ = VY.2 * VY.2ᵀ)) :=
  ⟨rfl, loss_dc_gram_nonneg _ _ rfl⟩

/-- L2 norm of a complex (re, im) pair: Shat.norm(2, -1) in
submodels.MisiNetwork.forward, with no clamping. -/
noncomputable def norm2 (v : ℝ × ℝ) : ℝ := Real.sqrt (v.1 ^ 2 + v.2 ^ 2)

/-- torch.nn.functional.normalize(v, p=2, dim=-1) on a complex pair: v
divided by the maximum of its L2 norm and the default eps 1e-12. -/
noncomputable def l2normalize (v : ℝ × ℝ) : ℝ × ℝ :=
  (v.1 / max (norm2 v) (1 / 10 ^ 12), v.2 / max (norm2 v) (1 / 10 ^ 12))

/-- Scalar times complex pair, as the broadcast Shatmag * phase multiply. -/
def smulPair (r : ℝ) (v : ℝ × ℝ) : ℝ × ℝ := (r * v.1, r * v.2)

/-- Complex multiplication on (re, im) pairs by the standard rule
(ac - bd, ad + bc), the comp_mul closure defined identically in
submodels.MisiNetwork.forward and losses.loss_csa. -/
def compMul (X Y : ℝ × ℝ) : ℝ × ℝ :=
  (X.1 * Y.1 - X.2 * Y.2, X.1 * Y.2 + X.2 * Y.1)

/- The MISI layer and network.  torch.stft and torchaudio.functional.istft
are external library calls, not code of this repository, so they enter the
embedding as opaque function parameters stft and istft; W is the waveform
sample index type and F the (flattened frequency-by-frame) spectrogram bin
index type.  The source works on tensors whose leading dimension is the
flattened batch_size * n_channels; the reshape to (batch, channels, ...)
and the repeat_interleave of delta back to the flattened layout are pure
index bookkeeping, modelled by indexing with the pair (b : Fin B,
c : Fin C) directly. -/

/-- shat = istft(Shat) in submodels.MisiLayer.forward: the current
time-domain reconstruction of channel c of example b. -/
noncomputable def MisiLayer.shat {B C : ℕ} {F W : Type}
    (istft : (F → ℝ × ℝ) → W → ℝ)
    (Shat : Fin B → Fin C → F → ℝ × ℝ) (b : Fin B) (c : Fin C) : W → ℝ :=
  istft (Shat b c)

/-- delta = mixture - torch.sum(shat.reshape(B, C, W), dim=1) / n_channels
in submodels.MisiLayer.forward: the per-sample residual of example b. -/
noncomputable def MisiLayer.delta {B C : ℕ} {F W : Type}
    (istft : (F → ℝ × ℝ) → W → ℝ)
    (Shat : Fin B → Fin C → F → ℝ × ℝ) (mixture : Fin B → W → ℝ)
    (b : Fin B) : W → ℝ :=
  fun i => mixture b i - (∑ c, MisiLayer.shat istft Shat b c i) / (C : ℝ)

/-- tmp = stft(shat + delta.repeat_interleave(n_channels, 0)) in
submodels.MisiLayer.forward: the same delta of example b is added to every
channel before re-transforming. -/
noncomputable def MisiLayer.tmp {B C : ℕ} {F W : Type}
    (stft : (W → ℝ) → F → ℝ × ℝ) (istft : (F → ℝ × ℝ) → W → ℝ)
    (Shat : Fin B → Fin C → F → ℝ × ℝ) (mixture : Fin B → W → ℝ)
    (b : Fin B) (c : Fin C) : F → ℝ × ℝ :=
  stft fun i =>
    MisiLayer.shat istft Shat b c i + MisiLayer.delta istft Shat mixture b i

/-- submodels.MisiLayer.forward: Shatmag * normalize(tmp, p=2, dim=-1). -/
noncomputable def MisiLayer.forward {B C : ℕ} {F W : Type}
    (stft : (W → ℝ) → F → ℝ × ℝ) (istft : (F → ℝ × ℝ) → W → ℝ)
    (Shat : Fin B → Fin C → F → ℝ × ℝ) (Shatmag : Fin B → Fin C → F → ℝ)
    (mixture : Fin B → W → ℝ) : Fin B → Fin C → F → ℝ × ℝ :=
  fun b c f =>
    smulPair (Shatmag b c f) (l2normalize (MisiLayer.tmp stft istft Shat mixture b c f))

/-- Claim C1 (amended): the magnitude of an output bin of a single MISI
step equals the held-fixed target magnitude Shatmag at every bin whose
re-transformed coefficient tmp has L2 norm at least the normalize eps
1e-12 (and Shatmag is non-negative, as it always is in the network, being
itself an L2 norm).  In such a bin the step reassigns the magnitude and
only changes phase.  Without the eps guard the equality can fail: see the
counterexample, where tmp is the zero coefficient and the output magnitude
is 0 rather than Shatmag. -/
theorem misi_layer_magnitude {B C : ℕ} {F W : Type}
    (stft : (W → ℝ) → F → ℝ × ℝ) (istft : (F → ℝ × ℝ) → W → ℝ)
    (Shat : Fin B → Fin C → F → ℝ × ℝ) (Shatmag : Fin B → Fin C → F → ℝ)
    (mixture : Fin B → W → ℝ) (b : Fin B) (c : Fin C) (f : F)
    (hmag : 0 ≤ Shatmag b c f)
    (hbin : 1 / 10 ^ 12 ≤ norm2 (MisiLayer.tmp stft istft Shat mixture b c f)) :
    norm2 (MisiLayer.forward stft istft Shat Shatmag mixture b c f)
      = Shatmag b c f := by
  set v := MisiLayer.tmp stft istft Shat mixture b c f with hv
  have hs : 0 ≤ v.1 ^ 2 + v.2 ^ 2 := by positivity
  have heps : (0 : ℝ) < 1 / 10 ^ 12 := by norm_num
  have hd : 0 < norm2 v := lt_of_lt_of_le heps hbin
  have hdne : norm2 v ≠ 0 := ne_of_gt hd
  have hmax : max (norm2 v) (1 / 10 ^ 12) = norm2 v := max_eq_left hbin
  have hd2 : norm2 v ^ 2 = v.1 ^ 2 + v.2 ^ 2 := Real.sq_sqrt hs
  have key : (Shatmag b c f * (v.1 / norm2 v)) ^ 2
      + (Shatmag b c f * (v.2 / norm2 v)) ^ 2 = Shatmag b c f ^ 2 := by
    field_simp
    rw [hd2]
    ring
  show norm2 (smulPair (Shatmag b c f) (l2normalize v)) = Shatmag b c f
  unfold smulPair l2normalize
  rw [hmax]
  show Real.sqrt ((Shatmag b c f * (v.1 / norm2 v)) ^ 2
      + (Shatmag b c f * (v.2 / norm2 v)) ^ 2) = Shatmag b c f
  rw [key]
  exact Real.sqrt_sq hmag

/-- Witness for claim C1 at a concrete instance: a one-example,
one-channel, one-bin system in which the opaque transforms send everything
to the constant coefficient (3, 4) of norm 5, and Shatmag is 2. -/
theorem misi_layer_magnitude_witness :
    (0 : ℝ) ≤ 2
    ∧ (1 : ℝ) / 10 ^ 12 ≤ norm2 (MisiLayer.tmp
        (fun (_ : Unit → ℝ) (_ : Unit) => ((3 : ℝ), (4 : ℝ)))
        (fun (_ : Unit → ℝ × ℝ) (_ : Unit) => (0 : ℝ))
        (fun (_ : Fin 1) (_ : Fin 1) (_ : Unit) => ((0 : ℝ), (0 : ℝ)))
        (fun (_ : Fin 1) (_ : Unit) => (0 : ℝ)) 0 0 ())
    ∧ norm2 (MisiLayer.forward
        (fun (_ : Unit → ℝ) (_ : Unit) => ((3 : ℝ), (4 : ℝ)))
        (fun (_ : Unit → ℝ × ℝ) (_ : Unit) => (0 : ℝ))
        (fun (_ : Fin 1) (_ : Fin 1) (_ : Unit) => ((0 : ℝ), (0 : ℝ)))
        (fun (_ : Fin 1) (_ : Fin 1) (_ : Unit) => (2 : ℝ))
        (fun (_ : Fin 1) (_ : Unit) => (0 : ℝ)) 0 0 ())
      = (fun (_ : Fin 1) (_ : Fin 1) (_ : Unit) => (2 : ℝ)) 0 0 () := by
  have hnorm : norm2 ((3 : ℝ), (4 : ℝ)) = 5 := by
    unfold norm2
    rw [show (3 : ℝ) ^ 2 + (4 : ℝ) ^ 2 = 5 ^ 2 by norm_num]
    exact Real.sqrt_sq (by norm_num)
  have hbin : (1 : ℝ) / 10 ^ 12 ≤ norm2 (MisiLayer.tmp
      (fun (_ : Unit → ℝ) (_ : Unit) => ((3 : ℝ), (4 : ℝ)))
      (fun (_ : Unit → ℝ × ℝ) (_ : Unit) => (0 : ℝ))
      (fun (_ : Fin 1) (_ : Fin 1) (_ : Unit) => ((0 : ℝ), (0 : ℝ)))
      (fun (_ : Fin 1) (_ : Unit) => (0 : ℝ)) 0 0 ()) := by
    show (1 : ℝ) / 10 ^ 12 ≤ norm2 ((3 : ℝ), (4 : ℝ))
    rw [hnorm]
    norm_num
  exact ⟨by norm_num, hbin,
    misi_layer_magnitude (fun (_ : Unit → ℝ) (_ : Unit) => ((3 : ℝ), (4 : ℝ)))
      (fun (_ : Unit → ℝ × ℝ) (_ : Unit) => (0 : ℝ))
      (fun (_ : Fin 1) (_ : Fin 1) (_ : Unit) => ((0 : ℝ), (0 : ℝ)))
      (fun (_ : Fin 1) (_ : Fin 1) (_ : Unit) => (2 : ℝ))
      (fun (_ : Fin 1) (_ : Unit) => (0 : ℝ)) 0 0 ()
      (by norm_num) hbin⟩

/-- Counterexample to claim C1 as stated (magnitude preservation for every
input with exact equality): a one-example, one-channel, one-bin instance
with the all-zero Shat and mixture, under the one-point transform pair
stft x = (x 0, 0), istft X = re (X 0) (which, like the real STFT pair, is
linear and maps zero to zero).  There tmp is the zero coefficient, the
normalize eps floor makes the phase factor zero rather than unit, and the
output magnitude is 0 while Shatmag is 1. -/
theorem misi_layer_magnitude_counterexample :
    ¬ (norm2 (MisiLayer.forward
        (fun x (_ : Unit) => (x (), (0 : ℝ))) (fun X (_ : Unit) => (X ()).1)
        (fun (_ : Fin 1) (_ : Fin 1) (_ : Unit) => ((0 : ℝ), (0 : ℝ)))
        (fun (_ : Fin 1) (_ : Fin 1) (_ : Unit) => (1 : ℝ))
        (fun (_ : Fin 1) (_ : Unit) => (0 : ℝ)) 0 0 ())
      = (fun (_ : Fin 1) (_ : Fin 1) (_ : Unit) => (1 : ℝ)) 0 0 ()) := by
  intro h
  rw [show MisiLayer.forward
      (fun x (_ : Unit) => (x (), (0 : ℝ))) (fun X (_ : Unit) => (X ()).1)
      (fun (_ : Fin 1) (_ : Fin 1) (_ : Unit) => ((0 : ℝ), (0 : ℝ)))
      (fun (_ : Fin 1) (_ : Fin 1) (_ : Unit) => (1 : ℝ))
      (fun (_ : Fin 1) (_ : Unit) => (0 : ℝ)) 0 0 () = ((0 : ℝ), (0 : ℝ)) by
    simp only [MisiLayer.forward, MisiLayer.tmp, MisiLayer.shat, MisiLayer.delta,
      smulPair, l2normalize]
    norm_num] at h
  rw [show norm2 ((0 : ℝ), (0 : ℝ)) = 0 by
    unfold norm2; norm_num [Real.sqrt_zero]] at h
  norm_num at h

/-- Claim C3: inside a MISI step the residual delta of example b is the
mixture minus the channel-summed reconstruction divided by the channel
count C, the same delta is added to every channel's reconstruction before
re-transforming, and for C = 1 the residual is the full mixture-minus-
estimate difference. -/
theorem misi_layer_delta_spec {B C : ℕ} {F W : Type}
    (stft : (W → ℝ) → F → ℝ × ℝ) (istft : (F → ℝ × ℝ) → W → ℝ)
    (Shat : Fin B → Fin C → F → ℝ × ℝ) (mixture : Fin B → W → ℝ) :
    (∀ b i, MisiLayer.delta istft Shat mixture b i
        = mixture b i - (∑ c, MisiLayer.shat istft Shat b c i) / (C : ℝ))
    ∧ (∀ b c, MisiLayer.tmp stft istft Shat mixture b c
        = stft fun i =>
            MisiLayer.shat istft Shat b c i + MisiLayer.delta istft Shat mixture b i)
    ∧ (C = 1 → ∀ b c i, MisiLayer.delta istft Shat mixture b i
        = mixture b i - MisiLayer.shat istft Shat b c i) := by
  refine ⟨fun b i => rfl, fun b c => rfl, ?_⟩
  intro hC
  subst hC
  intro b c i
  unfold MisiLayer.delta
  rw [Fin.sum_univ_one, Nat.cast_one, div_one, Subsingleton.elim c 0]

/-- Witness for claim C3 in the one-channel case: with C = 1, a constant
istft recovering 3 everywhere and a constant mixture 5, the residual is
the full difference 5 - 3. -/
theorem misi_layer_delta_spec_witness :
    (1 = 1)
    ∧ MisiLayer.delta (fun _ (_ : Unit) => (3 : ℝ))
        (fun (_ : Fin 1) (_ : Fin 1) (_ : Unit) => ((0 : ℝ), (0 : ℝ)))
        (fun (_ : Fin 1) (_ : Unit) => (5 : ℝ)) 0 ()
      = (fun (_ : Fin 1) (_ : Unit) => (5 : ℝ)) 0 ()
        - MisiLayer.shat (fun _ (_ : Unit) => (3 : ℝ))
            (fun (_ : Fin 1) (_ : Fin 1) (_ : Unit) => ((0 : ℝ), (0 : ℝ))) 0 0 () :=
  ⟨rfl,
    (misi_layer_delta_spec (fun _ (_ : Unit) => ((0 : ℝ), (0 : ℝ)))
      (fun _ (_ : Unit) => (3 : ℝ))
      (fun (_ : Fin 1) (_ : Fin 1) (_ : Unit) => ((0 : ℝ), (0 : ℝ)))
      (fun (_ : Fin 1) (_ : Unit) => (5 : ℝ))).2.2 rfl 0 0 ()⟩

/-- Shat = comp_mul(mask, stft(mixture).repeat_interleave(n_channels, 0))
in submodels.MisiNetwork.forward: the masked mixture spectrum, the
mixture's transform replicated across channels. -/
noncomputable def MisiNetwork.Shat0 {B C : ℕ} {F W : Type}
    (stft : (W → ℝ) → F → ℝ × ℝ)
    (mask : Fin B → Fin C → F → ℝ × ℝ) (mixture : Fin B → W → ℝ) :
    Fin B → Fin C → F → ℝ × ℝ :=
  fun b c f => compMul (mask b c f) (stft (mixture b) f)

/-- Shatmag = Shat.norm(2, -1, keepdim=True) in
submodels.MisiNetwork.forward, computed once from the initial masked
spectrum before the iteration loop. -/
noncomputable def MisiNetwork.Shatmag {B C : ℕ} {F W : Type}
    (stft : (W → ℝ) → F → ℝ × ℝ)
    (mask : Fin B → Fin C → F → ℝ × ℝ) (mixture : Fin B → W → ℝ) :
    Fin B → Fin C → F → ℝ :=
  fun b c f => norm2 (MisiNetwork.Shat0 stft mask mixture b c f)

/-- The for loop of submodels.MisiNetwork.forward: n applications of
MisiLayer, each receiving the previous Shat, the fixed Shatmag and the
fixed mixture. -/
noncomputable def MisiNetwork.iter {B C : ℕ} {F W : Type}
    (stft : (W → ℝ) → F → ℝ × ℝ) (istft : (F → ℝ × ℝ) → W → ℝ)
    (mask : Fin B → Fin C → F → ℝ × ℝ) (mixture : Fin B → W → ℝ) :
    ℕ → Fin B → Fin C → F → ℝ × ℝ
  | 0 => MisiNetwork.Shat0 stft mask mixture
  | n + 1 =>
    MisiLayer.forward stft istft (MisiNetwork.iter stft istft mask mixture n)
      (MisiNetwork.Shatmag stft mask mixture) mixture

/-- submodels.MisiNetwork.forward: run the loop layer_num times starting
from the masked spectrum, then invert the final spectrum. -/
noncomputable def MisiNetwork.forward {B C : ℕ} {F W : Type}
    (stft : (W → ℝ) → F → ℝ × ℝ) (istft : (F → ℝ × ℝ) → W → ℝ)
    (layer_num : ℕ)
    (mask : Fin B → Fin C → F → ℝ × ℝ) (mixture : Fin B → W → ℝ) :
    Fin B → Fin C → W → ℝ :=
  fun b c => istft (MisiNetwork.iter stft istft mask mixture layer_num b c)

/-- Claim C4: MisiNetwork applies the MISI step exactly layer_num times in
sequence (the iterate of one fixed step function), each step's output
feeding the next step's input; with layer_num = 0 the masked spectrum is
inverted directly; and the target magnitude is computed once from the
initial masked spectrum and the very same value is the Shatmag argument of
every iteration. -/
theorem misi_network_iteration_spec {B C : ℕ} {F W : Type}
    (stft : (W → ℝ) → F → ℝ × ℝ) (istft : (F → ℝ × ℝ) → W → ℝ)
    (mask : Fin B → Fin C → F → ℝ × ℝ) (mixture : Fin B → W → ℝ) :
    (MisiNetwork.forward stft istft 0 mask mixture
        = fun b c => istft (MisiNetwork.Shat0 stft mask mixture b c))
    ∧ (∀ n, MisiNetwork.iter stft istft mask mixture (n + 1)
        = MisiLayer.forward stft istft (MisiNetwork.iter stft istft mask mixture n)
            (MisiNetwork.Shatmag stft mask mixture) mixture)
    ∧ (∀ n, MisiNetwork.iter stft istft mask mixture n
        = (fun S => MisiLayer.forward stft istft S
            (MisiNetwork.Shatmag stft mask mixture) mixture)^[n]
            (MisiNetwork.Shat0 stft mask mixture))
    ∧ (∀ b c f, MisiNetwork.Shatmag stft mask mixture b c f
        = norm2 (MisiNetwork.Shat0 stft mask mixture b c f))
    ∧ (∀ n, MisiNetwork.forward stft istft n mask mixture
        = fun b c => istft (MisiNetwork.iter stft istft mask mixture n b c)) := by
  refine ⟨rfl, fun n => rfl, ?_, fun b c f => rfl, fun n => rfl⟩
  intro n
  induction n with
  | zero => rfl
  | succ m ih =>
    rw [Function.iterate_succ_apply']
    show MisiLayer.forward stft istft (MisiNetwork.iter stft istft mask mixture m)
        (MisiNetwork.Shatmag stft mask mixture) mixture = _
    rw [ih]

/-- abs_comp from losses.py: torch.sqrt(torch.sum(X**2, -1).clamp(min=1e-12)),
the magnitude of a complex bin with the squared sum floored at 1e-12. -/
noncomputable def absComp (v : ℝ × ℝ) : ℝ :=
  Real.sqrt (max (v.1 ^ 2 + v.2 ^ 2) (1 / 10 ^ 12))

/-- torch.atan2(y, x): the argument of the complex number x + y*i, in
(-pi, pi]. -/
noncomputable def atan2 (y x : ℝ) : ℝ := Complex.arg (Complex.mk x y)

/-- phase_comp from losses.py: torch.atan2 applied to the (im, re) split
of a complex bin. -/
noncomputable def phaseComp (v : ℝ × ℝ) : ℝ := atan2 v.2 v.1

/-- The truncated phase-sensitive target of losses.loss_mi_tpsa per bin
(s the source bin, x the mixture bin):
torch.min(torch.max(abs_S * cos(phase_S - phase_X), 0), gamma * abs_X). -/
noncomputable def tpsaTarget (gamma : ℝ) (s x : ℝ × ℝ) : ℝ :=
  min (max (absComp s * Real.cos (phaseComp s - phaseComp x)) 0)
    (gamma * absComp x)

/-- Sum of elementwise squared differences between two 1-D tensors:
torch.sum((a - b) ** 2). -/
def sqCost {α : Type*} [LinearOrderedField α] (a b : List α) : α :=
  (List.zipWith (fun x y => (x - y) ^ 2) a b).sum

/-- Total squared cost of one channel ordering against the fixed-order
truths (the L = 2 branch of the magnitude losses). -/
def stackSqCost {α : Type*} [LinearOrderedField α] (s t : List (List α)) : α :=
  (List.zipWith sqCost s t).sum

/-- losses.loss_mi_tpsa: mask times the mixture magnitude against the
truncated phase-sensitive target, L1 (L = 1) or squared (L = 2) distance,
minimum over the permutations of the mask channels, summed over the batch.
The unsupported-L branch (raise NotImplementedError) is modelled by
returning none. -/
noncomputable def loss_mi_tpsa (mask : List (List (List ℝ)))
    (mixture : List (List (ℝ × ℝ))) (sources : List (List (List (ℝ × ℝ))))
    (gamma : ℝ) (L : ℤ) : Option ℝ :=
  if L = 1 then
    some (((mask.zip (mixture.zip sources)).map fun mxs =>
      pyMin (mxs.1.permutations.map fun M =>
        stackL1Cost
          (M.map fun ch => List.zipWith (fun m x => m * absComp x) ch mxs.2.1)
          (mxs.2.2.map fun sch => List.zipWith (tpsaTarget gamma) sch mxs.2.1))).sum)
  else if L = 2 then
    some (((mask.zip (mixture.zip sources)).map fun mxs =>
      pyMin (mxs.1.permutations.map fun M =>
        stackSqCost
          (M.map fun ch => List.zipWith (fun m x => m * absComp x) ch mxs.2.1)
          (mxs.2.2.map fun sch => List.zipWith (tpsaTarget gamma) sch mxs.2.1))).sum)
  else none

/-- source_pred = comp_mul(com_pred, mixture.unsqueeze(1)) in
losses.loss_csa: every channel of the complex mask multiplied elementwise
against the example's mixture spectrum. -/
def csaSourcePred (com_pred : List (List (ℝ × ℝ))) (mixbins : List (ℝ × ℝ)) :
    List (List (ℝ × ℝ)) :=
  com_pred.map fun ch => List.zipWith compMul ch mixbins

/-- The L = 1 cost of one ordering of predicted channels in
losses.loss_csa: the clamped magnitude of the complex residual, summed. -/
noncomputable def csaCostL1 (s t : List (List (ℝ × ℝ))) : ℝ :=
  (List.zipWith (fun sch tch =>
    (List.zipWith (fun p q => absComp (p.1 - q.1, p.2 - q.2)) sch tch).sum) s t).sum

/-- The L = 2 cost of one ordering of predicted channels in
losses.loss_csa: the clamped magnitude of the complex residual squared,
summed. -/
noncomputable def csaCostL2 (s t : List (List (ℝ × ℝ))) : ℝ :=
  (List.zipWith (fun sch tch =>
    (List.zipWith (fun p q => absComp (p.1 - q.1, p.2 - q.2) ^ 2) sch tch).sum) s t).sum

/-- losses.loss_csa: complex-mask estimates against the true source
spectra, minimum over the permutations of the predicted channels, summed
over the batch; the unsupported-L branch (raise NotImplementedError) is
modelled by returning none. -/
noncomputable def loss_csa (com_pred : List (List (List (ℝ × ℝ))))
    (mixture : List (List (ℝ × ℝ))) (sources : List (List (List (ℝ × ℝ))))
    (L : ℤ) : Option ℝ :=
  if L = 1 then
    some (((com_pred.zip (mixture.zip sources)).map fun cms =>
      pyMin ((csaSourcePred cms.1 cms.2.1).permutations.map fun s =>
        csaCostL1 s cms.2.2)).sum)
  else if L = 2 then
    some (((com_pred.zip (mixture.zip sources)).map fun cms =>
      pyMin ((csaSourcePred cms.1 cms.2.1).permutations.map fun s =>
        csaCostL2 s cms.2.2)).sum)
  else none

theorem compMul_one (x : ℝ × ℝ) : compMul (1, 0) x = x := by
  simp [compMul]

theorem zipWith_compMul_ones :
    ∀ (ch mx : List (ℝ × ℝ)), ch.length = mx.length →
      (∀ v ∈ ch, v = ((1 : ℝ), (0 : ℝ))) → List.zipWith compMul ch mx = mx := by
  intro ch
  induction ch with
  | nil =>
    intro mx h _
    cases mx with
    | nil => rfl
    | cons x mx' => exact absurd h (by simp)
  | cons v ch' ih =>
    intro mx h hv
    cases mx with
    | nil => exact absurd h (by simp)
    | cons x mx' =>
      rw [List.zipWith_cons_cons, hv v (List.mem_cons_self v ch'), compMul_one]
      rw [ih mx' (by simpa using h) fun w hw => hv w (List.mem_cons_of_mem v hw)]

theorem csaSourcePred_ones :
    ∀ (com : List (List (ℝ × ℝ))) (mx : List (ℝ × ℝ)),
      (∀ ch ∈ com, ∀ v ∈ ch, v = ((1 : ℝ), (0 : ℝ))) →
      (∀ ch ∈ com, ch.length = mx.length) →
      csaSourcePred com mx = com.map (fun _ => mx) := by
  intro com
  induction com with
  | nil => intro mx _ _; rfl
  | cons ch rest ih =>
    intro mx hid hlen
    unfold csaSourcePred
    rw [List.map_cons, List.map_cons,
      zipWith_compMul_ones ch mx
        (hlen ch (List.mem_cons_self ch rest))
        (hid ch (List.mem_cons_self ch rest))]
    have := ih mx (fun c hc => hid c (List.mem_cons_of_mem ch hc))
      (fun c hc => hlen c (List.mem_cons_of_mem ch hc))
    unfold csaSourcePred at this
    rw [this]

/-- Claim C5: for the identity complex mask com_pred = (1, 0) at every
bin and channel, the source_pred computed inside loss_csa is exactly the
mixture spectrum for every channel, so the complex residual
source_pred - sources that loss_csa measures equals mixture - sources
exactly in both real and imaginary components, with no spurious imaginary
contribution, for every mixture and sources input. -/
theorem loss_csa_identity_mask_residual
    (com_pred : List (List (ℝ × ℝ))) (mixbins : List (ℝ × ℝ))
    (hid : ∀ ch ∈ com_pred, ∀ v ∈ ch, v = ((1 : ℝ), (0 : ℝ)))
    (hlen : ∀ ch ∈ com_pred, ch.length = mixbins.length) :
    (∀ x : ℝ × ℝ, compMul (1, 0) x = x)
    ∧ csaSourcePred com_pred mixbins = com_pred.map (fun _ => mixbins)
    ∧ ∀ src : List (ℝ × ℝ), ∀ ch ∈ csaSourcePred com_pred mixbins,
        List.zipWith (fun p q => (p.1 - q.1, p.2 - q.2)) ch src
          = List.zipWith (fun p q => (p.1 - q.1, p.2 - q.2)) mixbins src := by
  have hmap := csaSourcePred_ones com_pred mixbins hid hlen
  refine ⟨compMul_one, hmap, ?_⟩
  intro src ch hch
  rw [hmap] at hch
  rcases List.mem_map.mp hch with ⟨_, _, rfl⟩
  rfl

/-- Witness for claim C5 at a concrete input: a single channel whose one
mask bin is the identity (1, 0), against the one-bin mixture (2, 3). -/
theorem loss_csa_identity_mask_residual_witness :
    (∀ ch ∈ [[((1 : ℝ), (0 : ℝ))]], ∀ v ∈ ch, v = ((1 : ℝ), (0 : ℝ)))
    ∧ (∀ ch ∈ [[((1 : ℝ), (0 : ℝ))]], ch.length = [((2 : ℝ), (3 : ℝ))].length)
    ∧ csaSourcePred [[((1 : ℝ), (0 : ℝ))]] [((2 : ℝ), (3 : ℝ))]
        = [[((1 : ℝ), (0 : ℝ))]].map (fun _ => [((2 : ℝ), (3 : ℝ))]) :=
  ⟨by simp, by simp,
    (loss_csa_identity_mask_residual [[((1 : ℝ), (0 : ℝ))]] [((2 : ℝ), (3 : ℝ))]
      (by simp) (by simp)).2.1⟩

/-- Claim C6: loss_mi_tpsa compares mask times the mixture magnitude
against the phase-sensitive target |source| * cos(phase_source -
phase_mixture) floored at 0 and capped at gamma * |mixture|, and sums the
L1 (L = 1) or squared (L = 2) elementwise distance under the best
permutation of the mask channels, per batch example.  The floor and cap
are stated as: the target is non-negative, at most gamma * |mixture|, and
equal to the raw phase-sensitive product whenever that product already
lies in the band. -/
theorem loss_mi_tpsa_spec (mask : List (List (List ℝ)))
    (mixture : List (List (ℝ × ℝ))) (sources : List (List (List (ℝ × ℝ))))
    (gamma : ℝ) (hg : 0 ≤ gamma) :
    loss_mi_tpsa mask mixture sources gamma 1
      = some (((mask.zip (mixture.zip sources)).map fun mxs =>
          pyMin (mxs.1.permutations.map fun M =>
            stackL1Cost
              (M.map fun ch => List.zipWith (fun m x => m * absComp x) ch mxs.2.1)
              (mxs.2.2.map fun sch => List.zipWith (tpsaTarget gamma) sch mxs.2.1))).sum)
    ∧ loss_mi_tpsa mask mixture sources gamma 2
      = some (((mask.zip (mixture.zip sources)).map fun mxs =>
          pyMin (mxs.1.permutations.map fun M =>
            stackSqCost
              (M.map fun ch => List.zipWith (fun m x => m * absComp x) ch mxs.2.1)
              (mxs.2.2.map fun sch => List.zipWith (tpsaTarget gamma) sch mxs.2.1))).sum)
    ∧ (∀ s x : ℝ × ℝ, 0 ≤ tpsaTarget gamma s x
        ∧ tpsaTarget gamma s x ≤ gamma * absComp x)
    ∧ (∀ s x : ℝ × ℝ,
        0 ≤ absComp s * Real.cos (phaseComp s - phaseComp x) →
        absComp s * Real.cos (phaseComp s - phaseComp x) ≤ gamma * absComp x →
        tpsaTarget gamma s x
          = absComp s * Real.cos (phaseComp s - phaseComp x))
    ∧ (∀ (mchans M : List (List ℝ)) (mixbins : List (ℝ × ℝ))
        (schans : List (List (ℝ × ℝ))), M.Perm mchans →
        pyMin (mchans.permutations.map fun M' =>
          stackL1Cost
            (M'.map fun ch => List.zipWith (fun m x => m * absComp x) ch mixbins)
            (schans.map fun sch => List.zipWith (tpsaTarget gamma) sch mixbins))
          ≤ stackL1Cost
            (M.map fun ch => List.zipWith (fun m x => m * absComp x) ch mixbins)
            (schans.map fun sch => List.zipWith (tpsaTarget gamma) sch mixbins)) := by
  refine ⟨by norm_num [loss_mi_tpsa], by norm_num [loss_mi_tpsa], ?_, ?_, ?_⟩
  · intro s x
    constructor
    · exact le_min (le_max_right _ 0) (mul_nonneg hg (Real.sqrt_nonneg _))
    · exact min_le_right _ _
  · intro s x h0 hcap
    unfold tpsaTarget
    rw [max_eq_left h0, min_eq_left hcap]
  · intro mchans M mixbins schans hM
    exact pyMin_le (List.mem_map_of_mem _ (List.mem_permutations.mpr hM))

/-- Witness for claim C6 at gamma = 1 on empty batches. -/
theorem loss_mi_tpsa_spec_witness :
    (0 : ℝ) ≤ 1
    ∧ (loss_mi_tpsa [] [] [] 1 1
        = some ((([] : List (List (List ℝ))).zip
            (([] : List (List (ℝ × ℝ))).zip ([] : List (List (List (ℝ × ℝ)))))).map
            (fun mxs =>
              pyMin (mxs.1.permutations.map fun M =>
                stackL1Cost
                  (M.map fun ch => List.zipWith (fun m x => m * absComp x) ch mxs.2.1)
                  (mxs.2.2.map fun sch => List.zipWith (tpsaTarget 1) sch mxs.2.1))) |>.sum)
      ∧ ∀ s x : ℝ × ℝ, 0 ≤ tpsaTarget 1 s x ∧ tpsaTarget 1 s x ≤ 1 * absComp x) :=
  ⟨zero_le_one,
    (loss_mi_tpsa_spec [] [] [] 1 zero_le_one).1,
    (loss_mi_tpsa_spec [] [] [] 1 zero_le_one).2.2.1⟩

/-- Claim C7: for every reduction order L outside {1, 2} the
distance-based losses loss_mi_tpsa and loss_csa take the raise
NotImplementedError branch (modelled as none) rather than defaulting to
some order, and for L in {1, 2} they return a value. -/
theorem losses_unsupported_L (mask : List (List (List ℝ)))
    (mixture : List (List (ℝ × ℝ))) (sources : List (List (List (ℝ × ℝ))))
    (com_pred : List (List (List (ℝ × ℝ)))) (gamma : ℝ) (L : ℤ) :
    ((L ≠ 1 ∧ L ≠ 2) →
      loss_mi_tpsa mask mixture sources gamma L = none
      ∧ loss_csa com_pred mixture sources L = none)
    ∧ ((L = 1 ∨ L = 2) →
      (loss_mi_tpsa mask mixture sources gamma L).isSome = true
      ∧ (loss_csa com_pred mixture sources L).isSome = true) := by
  constructor
  · intro h
    rw [loss_mi_tpsa, loss_csa, if_neg h.1, if_neg h.1, if_neg h.2, if_neg h.2]
    exact ⟨rfl, rfl⟩
  · intro h
    rcases h with rfl | rfl
    · rw [loss_mi_tpsa, loss_csa, if_pos rfl, if_pos rfl]
      exact ⟨rfl, rfl⟩
    · norm_num [loss_mi_tpsa, loss_csa]

/-- Witness for claim C7 at the concrete unsupported order L = 3 and the
supported order L = 1, on empty batches. -/
theorem losses_unsupported_L_witness :
    (((3 : ℤ) ≠ 1 ∧ (3 : ℤ) ≠ 2)
      ∧ loss_mi_tpsa [] [] [] 1 3 = none ∧ loss_csa [] [] [] 3 = none)
    ∧ (((1 : ℤ) = 1 ∨ (1 : ℤ) = 2)
      ∧ (loss_mi_tpsa [] [] [] 1 1).isSome = true
      ∧ (loss_csa [] [] [] 1).isSome = true) :=
  ⟨⟨by decide,
    (losses_unsupported_L [] [] [] [] 1 3).1 (by decide)⟩,
   ⟨Or.inl rfl,
    (losses_unsupported_L [] [] [] [] 1 1).2 (Or.inl rfl)⟩⟩

/-- Python float modulo x % m = x - m * floor(x / m) (the result takes the
divisor's sign), as torch applies % (2*pi) in losses.loss_ce_phase. -/
noncomputable def rmod (x m : ℝ) : ℝ := x - m * ⌊x / m⌋

/-- The circular distance used by losses.loss_ce_phase to pick the
phasebook entry nearest a true phase t:
torch.min((e - t) % (2*pi), (t - e) % (2*pi)). -/
noncomputable def circDist (e t : ℝ) : ℝ :=
  min (rmod (e - t) (2 * Real.pi)) (rmod (t - e) (2 * Real.pi))

/-- torch.argmin along the phasebook dimension: the first index attaining
the minimum, as a left fold over the index list. -/
def argminFin {k : ℕ} {α : Type*} [LinearOrder α] (f : Fin (k + 1) → α) :
    Fin (k + 1) :=
  (List.finRange (k + 1)).foldl (fun best i => if f i < f best then i else best) 0

/-- phase_ref_idx in losses.loss_ce_phase: for each bin, the index of the
phasebook entry of least circular distance to the true phase. -/
noncomputable def phaseRefIdx {k : ℕ} (book : Fin (k + 1) → ℝ) (t : ℝ) :
    Fin (k + 1) :=
  argminFin fun i => circDist (book i) t

/-- One bin's summand in losses.loss_ce_phase: minus the log of the
gathered predicted probability, clamped below at 1e-36. -/
noncomputable def ceBinLoss {k : ℕ} (p : Fin (k + 1) → ℝ) (i : Fin (k + 1)) : ℝ :=
  -Real.log (max (p i) (1 / 10 ^ 36))

/-- Cost of one ordering of the predicted-probability channels against the
fixed-order reference indices (gather, clamp, -log, sum). -/
noncomputable def ceCost {k : ℕ} (s : List (List (Fin (k + 1) → ℝ)))
    (ref : List (List (Fin (k + 1)))) : ℝ :=
  (List.zipWith (fun ch rch => (List.zipWith ceBinLoss ch rch).sum) s ref).sum

/-- The shared core of losses.loss_ce_phase once the truth is reduced to
reference indices: per example, the Python min over the permutations of
the predicted-probability channels of the gathered clamped -log cost,
summed over the batch. -/
noncomputable def loss_ce_phase_core {k : ℕ}
    (pred : List (List (List (Fin (k + 1) → ℝ))))
    (refIdx : List (List (List (Fin (k + 1))))) : ℝ :=
  ((pred.zip refIdx).map fun pr =>
    pyMin (pr.1.permutations.map fun s => ceCost s pr.2)).sum

/-- losses.loss_ce_phase for a 4-dimensional truth (phase in radians). -/
noncomputable def loss_ce_phase_radians {k : ℕ}
    (pred : List (List (List (Fin (k + 1) → ℝ))))
    (phase_true : List (List (List ℝ))) (book : Fin (k + 1) → ℝ) : ℝ :=
  loss_ce_phase_core pred
    (phase_true.map fun chs => chs.map fun bins => bins.map (phaseRefIdx book))

/-- The conversion of the 5-dimensional branch of losses.loss_ce_phase:
the complex truth bin is divided by the clamped norm
sqrt(clamp(re^2 + im^2, 1e-12)) and converted to radians with
torch.atan2. -/
noncomputable def complexToPhase (v : ℝ × ℝ) : ℝ :=
  atan2 (v.2 / Real.sqrt (max (v.1 ^ 2 + v.2 ^ 2) (1 / 10 ^ 12)))
    (v.1 / Real.sqrt (max (v.1 ^ 2 + v.2 ^ 2) (1 / 10 ^ 12)))

/-- losses.loss_ce_phase for a 5-dimensional truth (complex pairs): the
truth is converted to radians bin by bin and the radians path is
followed. -/
noncomputable def loss_ce_phase_complex {k : ℕ}
    (pred : List (List (List (Fin (k + 1) → ℝ))))
    (phase_true : List (List (List (ℝ × ℝ)))) (book : Fin (k + 1) → ℝ) : ℝ :=
  loss_ce_phase_radians pred
    (phase_true.map fun chs => chs.map fun bins => bins.map complexToPhase) book

/-- The finite upper bound certifying the 1e-36 clamp: log(10^36) for
every bin, accumulated with the same zip structure as the cost of the
identity channel ordering. -/
noncomputable def ceBound {k : ℕ}
    (pred : List (List (List (Fin (k + 1) → ℝ))))
    (refIdx : List (List (List (Fin (k + 1))))) : ℝ :=
  ((pred.zip refIdx).map fun pr =>
    (List.zipWith (fun (ch : List (Fin (k + 1) → ℝ)) (rch : List (Fin (k + 1))) =>
      (List.zipWith (fun _ _ => Real.log (10 ^ 36)) ch rch).sum) pr.1 pr.2).sum).sum

theorem ceBinLoss_le {k : ℕ} (p : Fin (k + 1) → ℝ) (i : Fin (k + 1)) :
    ceBinLoss p i ≤ Real.log (10 ^ 36) := by
  unfold ceBinLoss
  have hc : (0 : ℝ) < 1 / 10 ^ 36 := by norm_num
  have hmax : (1 : ℝ) / 10 ^ 36 ≤ max (p i) (1 / 10 ^ 36) := le_max_right _ _
  have hpos : (0 : ℝ) < max (p i) (1 / 10 ^ 36) := lt_of_lt_of_le hc hmax
  have hlog := (Real.log_le_log_iff hc hpos).mpr hmax
  have hval : -Real.log ((1 : ℝ) / 10 ^ 36) = Real.log (10 ^ 36) := by
    rw [one_div, Real.log_inv, neg_neg]
  linarith [hlog, hval]

theorem ce_bin_sum_le {k : ℕ} :
    ∀ (ch : List (Fin (k + 1) → ℝ)) (rch : List (Fin (k + 1))),
      (List.zipWith ceBinLoss ch rch).sum
        ≤ (List.zipWith (fun _ _ => Real.log (10 ^ 36)) ch rch).sum := by
  intro ch
  induction ch with
  | nil => intro rch; simp
  | cons p ch' ih =>
    intro rch
    cases rch with
    | nil => simp
    | cons i rch' =>
      rw [List.zipWith_cons_cons, List.zipWith_cons_cons, List.sum_cons, List.sum_cons]
      exact add_le_add (ceBinLoss_le p i) (ih rch')

theorem ceCost_le_bound {k : ℕ} :
    ∀ (s : List (List (Fin (k + 1) → ℝ))) (ref : List (List (Fin (k + 1)))),
      ceCost s ref
        ≤ (List.zipWith (fun (ch : List (Fin (k + 1) → ℝ)) (rch : List (Fin (k + 1))) =>
            (List.zipWith (fun _ _ => Real.log (10 ^ 36)) ch rch).sum) s ref).sum := by
  intro s
  induction s with
  | nil => intro ref; simp [ceCost]
  | cons ch s' ih =>
    intro ref
    cases ref with
    | nil => simp [ceCost]
    | cons rch ref' =>
      unfold ceCost
      rw [List.zipWith_cons_cons, List.zipWith_cons_cons, List.sum_cons, List.sum_cons]
      exact add_le_add (ce_bin_sum_le ch rch) (ih ref')

theorem loss_ce_phase_core_le {k : ℕ}
    (pred : List (List (List (Fin (k + 1) → ℝ))))
    (refIdx : List (List (List (Fin (k + 1))))) :
    loss_ce_phase_core pred refIdx ≤ ceBound pred refIdx := by
  unfold loss_ce_phase_core ceBound
  apply List.sum_le_sum
  intro pr _
  have hid : pr.1 ∈ pr.1.permutations := List.mem_permutations.mpr (List.Perm.refl _)
  have h1 : pyMin (pr.1.permutations.map fun s => ceCost s pr.2) ≤ ceCost pr.1 pr.2 :=
    pyMin_le (List.mem_map_of_mem _ hid)
  exact le_trans h1 (ceCost_le_bound pr.1 pr.2)

/-- Claim C8: loss_ce_phase never produces NaN or minus infinity: for
every input, the gathered probability is clamped to at least 1e-36 (a
strictly positive quantity) before the logarithm, so even when the
predicted probability of the selected entry is zero (and regardless of how
small the circular distance from the true phase to the nearest phasebook
entry is, e.g. within 1e-40) every summand is at most log(10^36), and the
returned loss is bounded above by the finite quantity ceBound, log(10^36)
per bin; both the radians and the complex truth formats are covered. -/
theorem loss_ce_phase_finite {k : ℕ}
    (pred : List (List (List (Fin (k + 1) → ℝ))))
    (phase_true : List (List (List ℝ)))
    (ctruth : List (List (List (ℝ × ℝ)))) (book : Fin (k + 1) → ℝ) :
    (∀ (p : Fin (k + 1) → ℝ) (i : Fin (k + 1)),
      1 / 10 ^ 36 ≤ max (p i) (1 / 10 ^ 36)
      ∧ 0 < max (p i) (1 / 10 ^ 36)
      ∧ ceBinLoss p i ≤ Real.log (10 ^ 36))
    ∧ loss_ce_phase_radians pred phase_true book
        ≤ ceBound pred
            (phase_true.map fun chs => chs.map fun bins => bins.map (phaseRefIdx book))
    ∧ loss_ce_phase_complex pred ctruth book
        ≤ ceBound pred
            ((ctruth.map fun chs => chs.map fun bins => bins.map complexToPhase).map
              fun chs => chs.map fun bins => bins.map (phaseRefIdx book)) := by
  refine ⟨fun p i => ⟨le_max_right _ _,
    lt_of_lt_of_le (by norm_num) (le_max_right _ _), ceBinLoss_le p i⟩, ?_, ?_⟩
  · exact loss_ce_phase_core_le pred _
  · exact loss_ce_phase_core_le pred _

theorem rmod_add_int_mul (x m : ℝ) (hm : m ≠ 0) (n : ℤ) :
    rmod (x + n * m) m = rmod x m := by
  unfold rmod
  have hdiv : (x + n * m) / m = x / m + n := by
    rw [add_div, mul_div_cancel_right₀ _ hm]
  rw [hdiv, Int.floor_add_int]
  push_cast
  ring

theorem circDist_period (e t : ℝ) (n : ℤ) :
    circDist e (t + n * (2 * Real.pi)) = circDist e t := by
  have h2pi : (2 : ℝ) * Real.pi ≠ 0 := ne_of_gt Real.two_pi_pos
  unfold circDist
  congr 1
  · rw [show e - (t + n * (2 * Real.pi))
        = (e - t) + (-n : ℤ) * (2 * Real.pi) by push_cast; ring,
      rmod_add_int_mul _ _ h2pi]
  · rw [show (t + n * (2 * Real.pi)) - e
        = (t - e) + (n : ℤ) * (2 * Real.pi) by ring,
      rmod_add_int_mul _ _ h2pi]

theorem phaseRefIdx_period {k : ℕ} (book : Fin (k + 1) → ℝ) (t : ℝ) (n : ℤ) :
    phaseRefIdx book (t + n * (2 * Real.pi)) = phaseRefIdx book t := by
  unfold phaseRefIdx
  congr 1
  funext i
  exact circDist_period (book i) t n

theorem atan2_scale (c y x : ℝ) (hc : 0 < c) : atan2 (c * y) (c * x) = atan2 y x := by
  unfold atan2
  rw [show Complex.mk (c * x) (c * y) = (c : ℂ) * Complex.mk x y from by
    rw [Complex.ofReal_mul']]
  exact Complex.arg_real_mul _ hc

theorem atan2_cos_sin (t : ℝ) :
    ∃ n : ℤ, atan2 (Real.sin t) (Real.cos t) = t + n * (2 * Real.pi) := by
  unfold atan2
  refine ⟨⌊(Real.pi - t) / (2 * Real.pi)⌋, ?_⟩
  have hmk : Complex.mk (Real.cos t) (Real.sin t)
      = (Real.cos t : ℂ) + (Real.sin t : ℂ) * Complex.I := Complex.mk_eq_add_mul_I _ _
  have h := Complex.arg_cos_add_sin_mul_I_sub t
  rw [Complex.ofReal_cos, Complex.ofReal_sin] at hmk
  rw [hmk]
  linarith [h]

theorem complexToPhase_polar (r t : ℝ) (hr : 0 < r) :
    ∃ n : ℤ, complexToPhase (r * Real.cos t, r * Real.sin t)
      = t + n * (2 * Real.pi) := by
  unfold complexToPhase
  set v : ℝ × ℝ := (r * Real.cos t, r * Real.sin t) with hv
  set d := Real.sqrt (max (v.1 ^ 2 + v.2 ^ 2) (1 / 10 ^ 12)) with hd
  have hdpos : 0 < d :=
    Real.sqrt_pos.mpr (lt_of_lt_of_le (by norm_num) (le_max_right _ _))
  have h1 : v.1 / d = (r / d) * Real.cos t := by
    show (r * Real.cos t) / d = (r / d) * Real.cos t
    ring
  have h2 : v.2 / d = (r / d) * Real.sin t := by
    show (r * Real.sin t) / d = (r / d) * Real.sin t
    ring
  rw [h1, h2, atan2_scale (r / d) _ _ (div_pos hr hdpos)]
  exact atan2_cos_sin t

theorem phaseRefIdx_complex_eq {k : ℕ} (book : Fin (k + 1) → ℝ)
    (v : ℝ × ℝ) (t : ℝ)
    (h : ∃ r : ℝ, 0 < r ∧ v = (r * Real.cos t, r * Real.sin t)) :
    phaseRefIdx book (complexToPhase v) = phaseRefIdx book t := by
  rcases h with ⟨r, hr, rfl⟩
  rcases complexToPhase_polar r t hr with ⟨n, hn⟩
  rw [hn, phaseRefIdx_period]

theorem forall2_map_eq {β γ δ : Type*} {f : β → δ} {g : γ → δ} :
    ∀ {l1 : List β} {l2 : List γ},
      List.Forall₂ (fun b c => f b = g c) l1 l2 → l1.map f = l2.map g := by
  intro l1 l2 h
  induction h with
  | nil => rfl
  | cons hbc _ ih => simp only [List.map_cons, hbc, ih]

/-- Claim C10: the two accepted truth formats of loss_ce_phase agree: for
a complex 5-dimensional truth whose bins are (r * cos t, r * sin t) with
any positive per-bin scale r, the loss equals that of the 4-dimensional
raw-radians truth t, because the complex branch normalizes to unit
magnitude (atan2 of a positive multiple is unchanged), atan2 recovers the
phase up to an added integer multiple of 2*pi, and the circular distance
used for nearest-entry selection is invariant under adding multiples of
2*pi. -/
theorem loss_ce_phase_truth_formats {k : ℕ}
    (pred : List (List (List (Fin (k + 1) → ℝ)))) (book : Fin (k + 1) → ℝ)
    (truthC : List (List (List (ℝ × ℝ)))) (truthR : List (List (List ℝ)))
    (hrel : List.Forall₂ (List.Forall₂ (List.Forall₂ (fun v t =>
      ∃ r : ℝ, 0 < r ∧ v = (r * Real.cos t, r * Real.sin t)))) truthC truthR) :
    loss_ce_phase_complex pred truthC book
      = loss_ce_phase_radians pred truthR book := by
  suffices hidx :
      (truthC.map fun chs => chs.map fun bins => bins.map complexToPhase).map
        (fun chs => chs.map fun bins => bins.map (phaseRefIdx book))
      = truthR.map fun chs => chs.map fun bins => bins.map (phaseRefIdx book) by
    unfold loss_ce_phase_complex loss_ce_phase_radians
    rw [hidx]
  rw [List.map_map]
  apply forall2_map_eq
  refine List.Forall₂.imp ?_ hrel
  intro chsC chsR h2
  show ((chsC.map fun bins => bins.map complexToPhase).map
    fun bins => bins.map (phaseRefIdx book))
    = chsR.map fun bins => bins.map (phaseRefIdx book)
  rw [List.map_map]
  apply forall2_map_eq
  refine List.Forall₂.imp ?_ h2
  intro binsC binsR h3
  show (binsC.map complexToPhase).map (phaseRefIdx book)
    = binsR.map (phaseRefIdx book)
  rw [List.map_map]
  apply forall2_map_eq
  refine List.Forall₂.imp ?_ h3
  intro v t hvt
  exact phaseRefIdx_complex_eq book v t hvt

/-- Witness for claim C10 at a concrete input: one example, one channel,
one bin, the complex truth (1, 0) = (1 * cos 0, 1 * sin 0) against the
radians truth 0, with a one-entry phasebook at 0 and predicted
probability 1. -/
theorem loss_ce_phase_truth_formats_witness :
    List.Forall₂ (List.Forall₂ (List.Forall₂ (fun (v : ℝ × ℝ) (t : ℝ) =>
        ∃ r : ℝ, 0 < r ∧ v = (r * Real.cos t, r * Real.sin t))))
      [[[((1 : ℝ), (0 : ℝ))]]] [[[(0 : ℝ)]]]
    ∧ loss_ce_phase_complex [[[fun (_ : Fin 1) => (1 : ℝ)]]]
        [[[((1 : ℝ), (0 : ℝ))]]] (fun (_ : Fin 1) => (0 : ℝ))
      = loss_ce_phase_radians [[[fun (_ : Fin 1) => (1 : ℝ)]]]
        [[[(0 : ℝ)]]] (fun (_ : Fin 1) => (0 : ℝ)) := by
  have hrel : List.Forall₂ (List.Forall₂ (List.Forall₂ (fun (v : ℝ × ℝ) (t : ℝ) =>
      ∃ r : ℝ, 0 < r ∧ v = (r * Real.cos t, r * Real.sin t))))
      [[[((1 : ℝ), (0 : ℝ))]]] [[[(0 : ℝ)]]] :=
    List.Forall₂.cons (List.Forall₂.cons (List.Forall₂.cons
      ⟨1, one_pos, by simp⟩ List.Forall₂.nil) List.Forall₂.nil) List.Forall₂.nil
  exact ⟨hrel, loss_ce_phase_truth_formats [[[fun (_ : Fin 1) => (1 : ℝ)]]]
    (fun (_ : Fin 1) => (0 : ℝ)) [[[((1 : ℝ), (0 : ℝ))]]] [[[(0 : ℝ)]]] hrel⟩

end Chimera
